import Mathlib

/-!
Verification of the media-processing job worker
(src/src/worker-python/rp_handler.py) against its specification.

The development shallowly embeds the pure computational core of the
worker: the cyclic sequencing loop of `concatenate_videos_cyclic`
(step 5), the chunked batch scheduling skeleton of
`process_img2vid_batch`, the variant distributor
`distribute_zoom_types` together with the Fisher-Yates shuffle it
invokes, the resource probe `calculate_optimal_batch_size`, and the
input-validation branches of `handler` for the `concatenate` and
`concat_video_audio` operations.  Durations are modelled as exact
rationals; Python exceptions are modelled with `Except`.
-/

namespace RpHandler

/-- A segment of the cyclic concatenation plan, mirroring the tuples
`(current_video, duration_to_use, is_partial)` appended to
`video_sequence` in step 5 of `concatenate_videos_cyclic`.  The video
path is represented by the index of the clip in the input list
(`video_index` in the Python code); `trimmed` is the `is_partial`
flag. -/
structure SequenceSegment where
  clipIdx : Nat
  duration : ℚ
  trimmed : Bool
deriving DecidableEq

/-- Sum of the play durations of a plan. -/
def segSum (plan : List SequenceSegment) : ℚ :=
  (plan.map (fun s => s.duration)).sum

/-- The `while accumulated_duration < audio_duration` loop of
`concatenate_videos_cyclic` (step 5).  `durs` is `video_durations`,
`T` is `audio_duration`, `acc` is `accumulated_duration` and `idx`
counts iterations (the Python variable `video_index` equals
`idx % durs.length` because it is reduced modulo the clip count on
every increment).  The loop body compares
`remaining_audio >= current_video_duration` exactly, appends a full
untrimmed segment in the true branch and a final trimmed segment of
length `remaining_audio` in the false branch.  Termination is made
structural with a fuel argument; the top-level wrapper supplies
enough fuel for the loop to run to completion. -/
def buildSeq (durs : List ℚ) (T : ℚ) : Nat → ℚ → Nat → List SequenceSegment
  | 0, _, _ => []
  | fuel + 1, acc, idx =>
    if acc < T then
      let d := durs.getD (idx % durs.length) 0
      if T - acc ≥ d then
        ⟨idx % durs.length, d, false⟩ :: buildSeq durs T fuel (acc + d) (idx + 1)
      else
        [⟨idx % durs.length, T - acc, true⟩]
    else []

/-- Smallest measured clip duration; used only to bound the number of
loop iterations (each full segment consumes at least this much of the
target duration). -/
def minDur : List ℚ → ℚ
  | [] => 1
  | [d] => d
  | d :: rest => min d (minDur rest)

/-- Fuel that is always sufficient for `buildSeq` to reach the break
or the loop condition: the loop runs at most `T / minDur` full
iterations plus one trimmed iteration. -/
def seqFuel (durs : List ℚ) (T : ℚ) : Nat :=
  (⌈T / minDur durs⌉).toNat + 1

/-- The sequencing computation of `concatenate_videos_cyclic`
(step 5): the exact segment plan tiling the cyclic clip list `durs`
to the target duration `T`. -/
def concatenate_videos_cyclic_plan (durs : List ℚ) (T : ℚ) : List SequenceSegment :=
  buildSeq durs T (seqFuel durs T) 0 0

example : concatenate_videos_cyclic_plan [4, 3] 10 =
    [⟨0, 4, false⟩, ⟨1, 3, false⟩, ⟨0, 3, true⟩] := by with_unfolding_all decide

example : concatenate_videos_cyclic_plan [5] 5 = [⟨0, 5, false⟩] := by with_unfolding_all decide

example : concatenate_videos_cyclic_plan [5] 12 =
    [⟨0, 5, false⟩, ⟨0, 5, false⟩, ⟨0, 2, true⟩] := by with_unfolding_all decide

theorem segSum_nil : segSum [] = 0 := rfl

theorem segSum_cons (s : SequenceSegment) (l : List SequenceSegment) :
    segSum (s :: l) = s.duration + segSum l := by
  simp [segSum]

theorem minDur_le (durs : List ℚ) : ∀ d ∈ durs, minDur durs ≤ d := by
  induction durs with
  | nil => intro d hd; simp at hd
  | cons a rest ih =>
    intro d hd
    cases rest with
    | nil =>
      rcases List.mem_cons.mp hd with h | h
      · subst h; exact le_of_eq rfl
      · simp at h
    | cons b t =>
      rcases List.mem_cons.mp hd with h | h
      · subst h
        exact min_le_left _ _
      · exact le_trans (min_le_right a (minDur (b :: t))) (ih d h)

theorem minDur_pos (durs : List ℚ) (hne : durs ≠ []) (hpos : ∀ d ∈ durs, 0 < d) :
    0 < minDur durs := by
  induction durs with
  | nil => exact absurd rfl hne
  | cons a rest ih =>
    cases rest with
    | nil => exact hpos a (by simp)
    | cons b t =>
      refine lt_min (hpos a (by simp)) ?_
      exact ih (by simp) (fun d hd => hpos d (List.mem_cons_of_mem a hd))

/-- The clip duration read inside the loop body is one of the measured
clip durations. -/
theorem loop_dur_mem (durs : List ℚ) (idx : ℕ) (hne : durs ≠ []) :
    durs.getD (idx % durs.length) 0 ∈ durs := by
  have hlen : 0 < durs.length := List.length_pos.mpr hne
  have hlt : idx % durs.length < durs.length := Nat.mod_lt _ hlen
  rw [List.getD_eq_getElem durs 0 hlt]
  exact List.getElem_mem hlt

/-- When the loop guard already fails the loop body never runs. -/
theorem buildSeq_stop (durs : List ℚ) (T : ℚ) (fuel : ℕ) (acc : ℚ) (idx : ℕ)
    (h : ¬ acc < T) : buildSeq durs T fuel acc idx = [] := by
  cases fuel with
  | zero => rfl
  | succ fuel => simp [buildSeq, h]

/-- Given enough fuel, the loop consumes exactly the remaining target
duration: the durations of the emitted segments sum to `T - acc`. -/
theorem buildSeq_sum (durs : List ℚ) (T : ℚ) (hne : durs ≠ [])
    (hpos : ∀ d ∈ durs, 0 < d) :
    ∀ (fuel : ℕ) (acc : ℚ) (idx : ℕ), acc < T →
      T - acc ≤ fuel * minDur durs →
      segSum (buildSeq durs T fuel acc idx) = T - acc := by
  intro fuel
  induction fuel with
  | zero =>
    intro acc idx hlt hle
    exfalso
    have h0 : (0 : ℚ) < T - acc := sub_pos.mpr hlt
    simp only [Nat.cast_zero, zero_mul] at hle
    linarith
  | succ fuel ih =>
    intro acc idx hlt hle
    have hmem : durs.getD (idx % durs.length) 0 ∈ durs := loop_dur_mem durs idx hne
    have hdpos : 0 < durs.getD (idx % durs.length) 0 := hpos _ hmem
    have hdmin : minDur durs ≤ durs.getD (idx % durs.length) 0 := minDur_le durs _ hmem
    simp only [buildSeq, if_pos hlt]
    by_cases hge : T - acc ≥ durs.getD (idx % durs.length) 0
    · rw [if_pos hge]
      rw [segSum_cons]
      by_cases hlt2 : acc + durs.getD (idx % durs.length) 0 < T
      · have hbound : T - (acc + durs.getD (idx % durs.length) 0) ≤ fuel * minDur durs := by
          have : ((fuel : ℚ) + 1) * minDur durs = fuel * minDur durs + minDur durs := by ring
          push_cast at hle
          linarith
        rw [ih _ (idx + 1) hlt2 hbound]
        ring
      · rw [buildSeq_stop durs T fuel _ (idx + 1) hlt2, segSum_nil]
        have h1 : T ≤ acc + durs.getD (idx % durs.length) 0 := le_of_not_lt hlt2
        linarith
    · rw [if_neg hge, segSum_cons, segSum_nil]
      ring

/-- The fuel chosen by `seqFuel` is always sufficient. -/
theorem seqFuel_sufficient (durs : List ℚ) (T : ℚ) (hne : durs ≠ [])
    (hpos : ∀ d ∈ durs, 0 < d) (hT : 0 < T) :
    T - 0 ≤ (seqFuel durs T : ℚ) * minDur durs := by
  have hm : 0 < minDur durs := minDur_pos durs hne hpos
  have h1 : T / minDur durs ≤ (⌈T / minDur durs⌉ : ℚ) := Int.le_ceil _
  have h2 : (0 : ℤ) ≤ ⌈T / minDur durs⌉ :=
    Int.ceil_nonneg (div_nonneg hT.le hm.le)
  have htn : ((⌈T / minDur durs⌉.toNat : ℕ) : ℚ) = ((⌈T / minDur durs⌉ : ℤ) : ℚ) := by
    exact_mod_cast congrArg (fun z : ℤ => (z : ℚ)) (Int.toNat_of_nonneg h2)
  have hcast : ((seqFuel durs T : ℕ) : ℚ) = (⌈T / minDur durs⌉ : ℚ) + 1 := by
    simp only [seqFuel]
    push_cast
    rw [htn]
  have h3 : (T / minDur durs) * minDur durs = T := div_mul_cancel₀ T hm.ne'
  have h4 : (T / minDur durs) * minDur durs ≤ (⌈T / minDur durs⌉ : ℚ) * minDur durs :=
    mul_le_mul_of_nonneg_right h1 hm.le
  rw [hcast, sub_zero]
  nlinarith

/-- With positive clip durations and a positive target the plan
durations sum exactly to the target. -/
theorem plan_sum (durs : List ℚ) (T : ℚ) (hne : durs ≠ [])
    (hpos : ∀ d ∈ durs, 0 < d) (hT : 0 < T) :
    segSum (concatenate_videos_cyclic_plan durs T) = T := by
  have := buildSeq_sum durs T hne hpos (seqFuel durs T) 0 0 hT
    (seqFuel_sufficient durs T hne hpos hT)
  simpa [concatenate_videos_cyclic_plan] using this

/-- Every untrimmed segment of the loop output plays the full measured
duration of the clip it references. -/
theorem buildSeq_full_duration (durs : List ℚ) (T : ℚ) :
    ∀ (fuel : ℕ) (acc : ℚ) (idx : ℕ),
      ∀ s ∈ buildSeq durs T fuel acc idx, s.trimmed = false →
        s.duration = durs.getD s.clipIdx 0 := by
  intro fuel
  induction fuel with
  | zero => intro acc idx s hs; simp [buildSeq] at hs
  | succ fuel ih =>
    intro acc idx s hs htr
    by_cases hlt : acc < T
    · simp only [buildSeq, if_pos hlt] at hs
      by_cases hge : T - acc ≥ durs.getD (idx % durs.length) 0
      · rw [if_pos hge] at hs
        rcases List.mem_cons.mp hs with h | h
        · subst h; rfl
        · exact ih _ (idx + 1) s h htr
      · rw [if_neg hge] at hs
        rcases List.mem_cons.mp hs with h | h
        · subst h; simp at htr
        · simp at h
    · rw [buildSeq_stop durs T _ acc idx hlt] at hs
      simp at hs

/-- Every segment of the loop output except possibly the final one is
untrimmed. -/
theorem buildSeq_dropLast_untrimmed (durs : List ℚ) (T : ℚ) :
    ∀ (fuel : ℕ) (acc : ℚ) (idx : ℕ),
      ∀ s ∈ (buildSeq durs T fuel acc idx).dropLast, s.trimmed = false := by
  intro fuel
  induction fuel with
  | zero => intro acc idx s hs; simp [buildSeq] at hs
  | succ fuel ih =>
    intro acc idx s hs
    by_cases hlt : acc < T
    · simp only [buildSeq, if_pos hlt] at hs
      by_cases hge : T - acc ≥ durs.getD (idx % durs.length) 0
      · rw [if_pos hge] at hs
        rcases Decidable.eq_or_ne (buildSeq durs T fuel (acc + durs.getD (idx % durs.length) 0) (idx + 1)) [] with hrest | hrest
        · rw [hrest] at hs; simp at hs
        · rw [List.dropLast_cons_of_ne_nil hrest] at hs
          rcases List.mem_cons.mp hs with h | h
          · subst h; rfl
          · exact ih _ (idx + 1) s h
      · rw [if_neg hge] at hs
        simp at hs
    · rw [buildSeq_stop durs T _ acc idx hlt] at hs
      simp at hs

/-- With positive clip durations the loop never emits a zero-length
(or negative-length) segment. -/
theorem buildSeq_duration_pos (durs : List ℚ) (T : ℚ) (hne : durs ≠ [])
    (hpos : ∀ d ∈ durs, 0 < d) :
    ∀ (fuel : ℕ) (acc : ℚ) (idx : ℕ),
      ∀ s ∈ buildSeq durs T fuel acc idx, 0 < s.duration := by
  intro fuel
  induction fuel with
  | zero => intro acc idx s hs; simp [buildSeq] at hs
  | succ fuel ih =>
    intro acc idx s hs
    by_cases hlt : acc < T
    · simp only [buildSeq, if_pos hlt] at hs
      by_cases hge : T - acc ≥ durs.getD (idx % durs.length) 0
      · rw [if_pos hge] at hs
        rcases List.mem_cons.mp hs with h | h
        · subst h
          exact hpos _ (loop_dur_mem durs idx hne)
        · exact ih _ (idx + 1) s h
      · rw [if_neg hge] at hs
        rcases List.mem_cons.mp hs with h | h
        · subst h
          exact sub_pos.mpr hlt
        · simp at h
    · rw [buildSeq_stop durs T _ acc idx hlt] at hs
      simp at hs

/-- A list whose every element but the last fails the predicate has at
most one element satisfying it. -/
theorem countP_le_one_of_dropLast {α : Type} (p : α → Bool) :
    ∀ l : List α, (∀ a ∈ l.dropLast, p a = false) → l.countP p ≤ 1 := by
  intro l
  induction l with
  | nil => intro _; simp
  | cons a t ih =>
    intro h
    cases t with
    | nil =>
      by_cases hp : p a
      · simp [List.countP_cons, hp]
      · simp [List.countP_cons, hp]
    | cons b u =>
      have ha : p a = false := h a (by simp [List.dropLast_cons_of_ne_nil])
      have ht : ∀ x ∈ (b :: u).dropLast, p x = false := by
        intro x hx
        exact h x (by rw [List.dropLast_cons_of_ne_nil (by simp)]; exact List.mem_cons_of_mem a hx)
      rw [List.countP_cons, ha]
      simpa using ih ht

/-- Sum of `n` consecutive clip durations of the cyclic clip sequence
starting at position `idx` (the amounts the loop accumulates while it
keeps taking full clips). -/
def cycSum (durs : List ℚ) : ℕ → ℕ → ℚ
  | _, 0 => 0
  | idx, n + 1 => durs.getD (idx % durs.length) 0 + cycSum durs (idx + 1) n

theorem cycSum_congr_mod (durs : List ℚ) :
    ∀ (n idx idx' : ℕ), idx % durs.length = idx' % durs.length →
      cycSum durs idx n = cycSum durs idx' n := by
  intro n
  induction n with
  | zero => intro idx idx' _; rfl
  | succ n ih =>
    intro idx idx' h
    simp only [cycSum, h]
    congr 1
    exact ih (idx + 1) (idx' + 1) (by rw [Nat.add_mod idx 1, Nat.add_mod idx' 1, h])

theorem cycSum_add (durs : List ℚ) :
    ∀ (a b idx : ℕ), cycSum durs idx (a + b) = cycSum durs idx a + cycSum durs (idx + a) b := by
  intro a
  induction a with
  | zero => intro b idx; simp [cycSum]
  | succ a ih =>
    intro b idx
    have h1 : a + 1 + b = (a + b) + 1 := by omega
    simp only [h1, cycSum, ih b (idx + 1)]
    have h2 : idx + 1 + a = idx + (a + 1) := by omega
    rw [h2]
    ring

theorem cycSum_nonneg (durs : List ℚ) (hne : durs ≠ []) (hpos : ∀ d ∈ durs, 0 < d) :
    ∀ (n idx : ℕ), 0 ≤ cycSum durs idx n := by
  intro n
  induction n with
  | zero => intro idx; exact le_refl 0
  | succ n ih =>
    intro idx
    have h1 : 0 < durs.getD (idx % durs.length) 0 := hpos _ (loop_dur_mem durs idx hne)
    have h2 := ih (idx + 1)
    simp only [cycSum]
    linarith

theorem cycSum_take (durs : List ℚ) :
    ∀ (n j : ℕ), j + n ≤ durs.length →
      cycSum durs j n = ((durs.drop j).take n).sum := by
  intro n
  induction n with
  | zero => intro j _; simp [cycSum]
  | succ n ih =>
    intro j h
    have hj : j < durs.length := by omega
    have hmod : j % durs.length = j := Nat.mod_eq_of_lt hj
    have hdrop : durs.drop j = durs[j] :: durs.drop (j + 1) :=
      List.drop_eq_getElem_cons hj
    simp only [cycSum, hmod, hdrop, List.take_succ_cons, List.sum_cons]
    rw [List.getD_eq_getElem durs 0 hj, ih (j + 1) (by omega)]

theorem cycSum_zero_length (durs : List ℚ) :
    cycSum durs 0 durs.length = durs.sum := by
  rw [cycSum_take durs durs.length 0 (by omega)]
  simp

/-- A window of one full cycle has the same duration sum wherever it
starts. -/
theorem cycSum_rot (durs : List ℚ) (hne : durs ≠ []) :
    ∀ idx : ℕ, cycSum durs idx durs.length = durs.sum := by
  have hlen : 0 < durs.length := List.length_pos.mpr hne
  intro idx
  induction idx with
  | zero => exact cycSum_zero_length durs
  | succ idx ih =>
    have hsplit : durs.length = (durs.length - 1) + 1 := by omega
    have h1 : cycSum durs idx durs.length =
        durs.getD (idx % durs.length) 0 + cycSum durs (idx + 1) (durs.length - 1) := by
      conv_lhs => rw [hsplit]
      simp only [cycSum]
    have h2 : cycSum durs (idx + 1) durs.length =
        cycSum durs (idx + 1) (durs.length - 1) +
          durs.getD ((idx + 1 + (durs.length - 1)) % durs.length) 0 := by
      conv_lhs => rw [hsplit]
      rw [cycSum_add durs (durs.length - 1) 1 (idx + 1)]
      simp [cycSum]
    have h3 : (idx + 1 + (durs.length - 1)) % durs.length = idx % durs.length := by
      have : idx + 1 + (durs.length - 1) = idx + durs.length := by omega
      rw [this, Nat.add_mod_right]
    rw [h2, h3, ← ih, h1]
    ring

/-- `m` full cycles sum to `m` times the total cycle duration. -/
theorem cycSum_cycles (durs : List ℚ) (hne : durs ≠ []) :
    ∀ m : ℕ, cycSum durs 0 (m * durs.length) = (m : ℚ) * durs.sum := by
  intro m
  induction m with
  | zero => simp [cycSum]
  | succ m ih =>
    have h1 : (m + 1) * durs.length = m * durs.length + durs.length := by ring
    rw [h1, cycSum_add durs (m * durs.length) durs.length 0]
    rw [cycSum_congr_mod durs durs.length (0 + m * durs.length) 0 (by simp [Nat.mul_mod_right])]
    rw [ih, cycSum_rot durs hne 0]
    push_cast
    ring

/-- If the remaining target duration is exactly a sum of consecutive
cyclic clip durations starting at the current position, the loop
finishes by taking full clips only: no segment is trimmed. -/
theorem buildSeq_untrimmed_of_reach (durs : List ℚ) (T : ℚ) (hne : durs ≠ [])
    (hpos : ∀ d ∈ durs, 0 < d) :
    ∀ (n fuel : ℕ) (acc : ℚ) (idx : ℕ), n ≤ fuel →
      T - acc = cycSum durs idx n →
      ∀ s ∈ buildSeq durs T fuel acc idx, s.trimmed = false := by
  intro n
  induction n with
  | zero =>
    intro fuel acc idx _ hreach s hs
    have : ¬ acc < T := by
      simp only [cycSum] at hreach
      intro hlt
      have := sub_pos.mpr hlt
      linarith
    rw [buildSeq_stop durs T fuel acc idx this] at hs
    simp at hs
  | succ n ih =>
    intro fuel acc idx hfuel hreach s hs
    cases fuel with
    | zero => omega
    | succ fuel =>
      simp only [cycSum] at hreach
      have hd : 0 < durs.getD (idx % durs.length) 0 := hpos _ (loop_dur_mem durs idx hne)
      have hcs : 0 ≤ cycSum durs (idx + 1) n := cycSum_nonneg durs hne hpos n (idx + 1)
      have hlt : acc < T := by
        have : 0 < T - acc := by linarith
        linarith
      have hge : T - acc ≥ durs.getD (idx % durs.length) 0 := by linarith
      simp only [buildSeq, if_pos hlt, if_pos hge] at hs
      rcases List.mem_cons.mp hs with h | h
      · subst h; rfl
      · refine ih fuel _ (idx + 1) (by omega) ?_ s h
        linarith

theorem length_mul_minDur_le_sum (durs : List ℚ) :
    (durs.length : ℚ) * minDur durs ≤ durs.sum := by
  induction durs with
  | nil => simp
  | cons a rest ih =>
    cases rest with
    | nil => simp [minDur]
    | cons b t =>
      have h2 : minDur (a :: b :: t) ≤ minDur (b :: t) := min_le_right _ _
      have h1 : minDur (a :: b :: t) ≤ a := min_le_left _ _
      have hlen : ((a :: b :: t).length : ℚ) = ((b :: t).length : ℚ) + 1 := by
        push_cast [List.length_cons]
        ring
      have h4 : ((b :: t).length : ℚ) * minDur (a :: b :: t) ≤
          ((b :: t).length : ℚ) * minDur (b :: t) :=
        mul_le_mul_of_nonneg_left h2 (by positivity)
      rw [hlen, List.sum_cons]
      nlinarith [ih]

/-- The fuel supplied by `seqFuel` covers `m` full cycles when the
target is `m` times the cycle duration. -/
theorem seqFuel_cycles (durs : List ℚ) (hne : durs ≠ [])
    (hpos : ∀ d ∈ durs, 0 < d) (m : ℕ) :
    m * durs.length ≤ seqFuel durs ((m : ℚ) * durs.sum) := by
  have hm : 0 < minDur durs := minDur_pos durs hne hpos
  have hsum : (durs.length : ℚ) * minDur durs ≤ durs.sum := length_mul_minDur_le_sum durs
  have h1 : ((m * durs.length : ℕ) : ℚ) ≤ ((m : ℚ) * durs.sum) / minDur durs := by
    rw [le_div_iff₀ hm]
    push_cast
    nlinarith [mul_le_mul_of_nonneg_left hsum (Nat.cast_nonneg (α := ℚ) m)]
  have h2 : ((m * durs.length : ℕ) : ℤ) ≤ ⌈((m : ℚ) * durs.sum) / minDur durs⌉ := by
    exact_mod_cast le_trans h1 (Int.le_ceil _)
  simp only [seqFuel]
  omega

/-- When the target duration is an exact multiple of the total cycle
duration, every segment of the plan is untrimmed. -/
theorem plan_untrimmed_of_cycles (durs : List ℚ) (hne : durs ≠ [])
    (hpos : ∀ d ∈ durs, 0 < d) (m : ℕ) :
    ∀ s ∈ concatenate_videos_cyclic_plan durs ((m : ℚ) * durs.sum), s.trimmed = false := by
  intro s hs
  refine buildSeq_untrimmed_of_reach durs _ hne hpos (m * durs.length) _ 0 0
    (seqFuel_cycles durs hne hpos m) ?_ s hs
  rw [sub_zero, cycSum_cycles durs hne m]

/-- One loop iteration taking the trimmed break branch. -/
theorem buildSeq_trim_step (durs : List ℚ) (T : ℚ) (fuel : ℕ) (acc : ℚ) (idx : ℕ)
    (h1 : acc < T) (h2 : ¬ T - acc ≥ durs.getD (idx % durs.length) 0) :
    buildSeq durs T (fuel + 1) acc idx = [⟨idx % durs.length, T - acc, true⟩] := by
  simp only [buildSeq, if_pos h1, if_neg h2]

/-- One loop iteration taking the full-clip branch. -/
theorem buildSeq_full_step (durs : List ℚ) (T : ℚ) (fuel : ℕ) (acc : ℚ) (idx : ℕ)
    (h1 : acc < T) (h2 : T - acc ≥ durs.getD (idx % durs.length) 0) :
    buildSeq durs T (fuel + 1) acc idx =
      ⟨idx % durs.length, durs.getD (idx % durs.length) 0, false⟩ ::
        buildSeq durs T fuel (acc + durs.getD (idx % durs.length) 0) (idx + 1) := by
  simp only [buildSeq, if_pos h1, if_pos h2]

/-- C1: for every non-empty clip list of positive measured durations
and every positive target duration, the cyclic sequencer produces a
plan whose segment durations sum exactly to the target, every
untrimmed segment plays the full measured duration of its clip, and on
clips [4.0, 3.0] with target 10.0 the plan is exactly
[(clip0, 4.0, untrimmed), (clip1, 3.0, untrimmed), (clip0, 3.0, trimmed)]. -/
theorem C1_cyclic_plan_sums_exactly :
    (∀ (durs : List ℚ) (T : ℚ), durs ≠ [] → (∀ d ∈ durs, 0 < d) → 0 < T →
      segSum (concatenate_videos_cyclic_plan durs T) = T ∧
        ∀ s ∈ concatenate_videos_cyclic_plan durs T, s.trimmed = false →
          s.duration = durs.getD s.clipIdx 0) ∧
    concatenate_videos_cyclic_plan [4, 3] 10 =
      [⟨0, 4, false⟩, ⟨1, 3, false⟩, ⟨0, 3, true⟩] := by
  constructor
  · intro durs T hne hpos hT
    refine ⟨plan_sum durs T hne hpos hT, ?_⟩
    intro s hs htr
    exact buildSeq_full_duration durs T (seqFuel durs T) 0 0 s hs htr
  · with_unfolding_all decide

/-- Witness for C1 at clips [4.0, 3.0], target 10.0. -/
theorem C1_witness :
    segSum (concatenate_videos_cyclic_plan [4, 3] 10) = 10 ∧
      ∀ s ∈ concatenate_videos_cyclic_plan [4, 3] 10, s.trimmed = false →
        s.duration = [(4 : ℚ), 3].getD s.clipIdx 0 :=
  C1_cyclic_plan_sums_exactly.1 [4, 3] 10 (by simp) (by decide) (by decide)

/-- C3: in every plan produced by the cyclic sequencer at most one
segment is marked trimmed, and all segments before the last are
untrimmed (so a trimmed segment can only be the last one).  This
holds for arbitrary clip lists and targets, in particular for the
non-empty positive ones of the claim. -/
theorem C3_at_most_one_trimmed_and_it_is_last (durs : List ℚ) (T : ℚ) :
    (concatenate_videos_cyclic_plan durs T).countP (fun s => s.trimmed) ≤ 1 ∧
      ∀ s ∈ (concatenate_videos_cyclic_plan durs T).dropLast, s.trimmed = false := by
  refine ⟨?_, buildSeq_dropLast_untrimmed durs T (seqFuel durs T) 0 0⟩
  exact countP_le_one_of_dropLast _ _ (buildSeq_dropLast_untrimmed durs T (seqFuel durs T) 0 0)

/-- Modelled from the spec (claim C2): the same sequencing loop, but
with the comparison `remaining >= clip.duration` made within a
floating-point epsilon tolerance, i.e. the full-clip branch is taken
whenever `remaining >= clip.duration - epsilon`.  This definition
follows the wording of the claim; the source code (step 5 of
`concatenate_videos_cyclic`) has no epsilon. -/
def buildSeqEps (eps : ℚ) (durs : List ℚ) (T : ℚ) : Nat → ℚ → Nat → List SequenceSegment
  | 0, _, _ => []
  | fuel + 1, acc, idx =>
    if acc < T then
      let d := durs.getD (idx % durs.length) 0
      if T - acc ≥ d - eps then
        ⟨idx % durs.length, d, false⟩ :: buildSeqEps eps durs T fuel (acc + d) (idx + 1)
      else
        [⟨idx % durs.length, T - acc, true⟩]
    else []

/-- Modelled from the spec (claim C2): the plan computed with the
epsilon-tolerant comparison. -/
def cyclic_plan_eps_spec (eps : ℚ) (durs : List ℚ) (T : ℚ) : List SequenceSegment :=
  buildSeqEps eps durs T (seqFuel durs T) 0 0

theorem buildSeqEps_stop (eps : ℚ) (durs : List ℚ) (T : ℚ) (fuel : ℕ) (acc : ℚ) (idx : ℕ)
    (h : ¬ acc < T) : buildSeqEps eps durs T fuel acc idx = [] := by
  cases fuel with
  | zero => rfl
  | succ fuel => simp [buildSeqEps, h]

/-- C2 counterexample: the comparison in the code is NOT an
epsilon-tolerant one.  No positive epsilon makes the epsilon-tolerant
loop of the claim agree with the loop in the source: for any
epsilon > 0 they already disagree on the single clip [epsilon] with
target epsilon / 2. -/
theorem C2_counterexample :
    ¬ ∃ eps : ℚ, 0 < eps ∧ ∀ (durs : List ℚ) (T : ℚ),
      cyclic_plan_eps_spec eps durs T = concatenate_videos_cyclic_plan durs T := by
  rintro ⟨eps, heps, h⟩
  have hinst := h [eps] (eps / 2)
  have hguard : (0 : ℚ) < eps / 2 := by positivity
  have hd : [eps].getD (0 % [eps].length) 0 = eps := rfl
  have hcode : concatenate_videos_cyclic_plan [eps] (eps / 2) =
      [⟨0 % [eps].length, eps / 2 - 0, true⟩] := by
    rw [show concatenate_videos_cyclic_plan [eps] (eps / 2) =
      buildSeq [eps] (eps / 2) ((⌈(eps / 2) / minDur [eps]⌉).toNat + 1) 0 0 from rfl]
    refine buildSeq_trim_step _ _ _ _ _ hguard ?_
    rw [hd]
    intro hge
    linarith
  have hspec : cyclic_plan_eps_spec eps [eps] (eps / 2) =
      [⟨0 % [eps].length, eps, false⟩] := by
    rw [show cyclic_plan_eps_spec eps [eps] (eps / 2) =
      buildSeqEps eps [eps] (eps / 2) ((⌈(eps / 2) / minDur [eps]⌉).toNat + 1) 0 0 from rfl]
    have hge : eps / 2 - 0 ≥ [eps].getD (0 % [eps].length) 0 - eps := by
      rw [hd]
      linarith
    simp only [buildSeqEps, if_pos hguard, if_pos hge, hd]
    rw [buildSeqEps_stop eps [eps] (eps / 2) _ (0 + eps) 1 (by intro hlt; linarith)]
    rw [if_pos (show (eps / 2 - 0 : ℚ) ≥ eps - eps by linarith)]
  rw [hspec, hcode] at hinst
  simp at hinst

/-- C2 (amended): the comparison in the loop is an exact `>=` with no
epsilon tolerance; nevertheless, in the exact-arithmetic model, when
the target duration is an exact multiple of the total cycle
duration the plan consists of full untrimmed segments only, the plan
never contains a zero-length segment (all segment durations are
positive), and clips=[5.0], T=5.0 yields the single untrimmed segment
(clip0, 5.0). -/
theorem C2_amended_exact_comparison :
    concatenate_videos_cyclic_plan [5] 5 = [⟨0, 5, false⟩] ∧
    (∀ (durs : List ℚ) (m : ℕ), durs ≠ [] → (∀ d ∈ durs, 0 < d) →
      ∀ s ∈ concatenate_videos_cyclic_plan durs ((m : ℚ) * durs.sum), s.trimmed = false) ∧
    (∀ (durs : List ℚ) (T : ℚ), durs ≠ [] → (∀ d ∈ durs, 0 < d) →
      ∀ s ∈ concatenate_videos_cyclic_plan durs T, 0 < s.duration) := by
  refine ⟨by with_unfolding_all decide, ?_, ?_⟩
  · intro durs m hne hpos s hs
    exact plan_untrimmed_of_cycles durs hne hpos m s hs
  · intro durs T hne hpos s hs
    exact buildSeq_duration_pos durs T hne hpos (seqFuel durs T) 0 0 s hs

/-- Witness for the amended C2 at clips [5.0], m = 1 cycle and target
5.0. -/
theorem C2_amended_witness :
    (∀ s ∈ concatenate_videos_cyclic_plan [5] (((1 : ℕ) : ℚ) * [(5 : ℚ)].sum),
        s.trimmed = false) ∧
      ∀ s ∈ concatenate_videos_cyclic_plan [5] 5, 0 < s.duration :=
  ⟨C2_amended_exact_comparison.2.1 [5] 1 (by simp) (by decide),
   C2_amended_exact_comparison.2.2 [5] 5 (by simp) (by decide)⟩

section Batch

variable {α β ε : Type}

/-- The result-collection loop of one chunk in
`process_img2vid_batch`: `for j, future in enumerate(futures)` reads
the futures strictly in submission (index) order, appends successful
results, and re-raises the first exception observed.  The input list
is the list of futures of the chunk in submission order. -/
def collectChunk : List (Except ε β) → Except ε (List β)
  | [] => .ok []
  | .ok b :: rest =>
    match collectChunk rest with
    | .ok bs => .ok (b :: bs)
    | .error e => .error e
  | .error e :: _ => .error e

/-- The chunked batch loop of `process_img2vid_batch`:
`for i in range(0, total, BATCH_SIZE)` takes the chunk
`images[i : i + BATCH_SIZE]`, submits `worker` on every item of the
chunk (all futures of a chunk are created before any result is
collected), collects the results of the chunk in index order, and a raised
error aborts the whole batch so that later chunks are never started.
The first component of the result is the trace of items `worker` was
invoked on; the second is the batch outcome.  `C` is `BATCH_SIZE`;
fuel makes the recursion structural, `items.length` is enough fuel
whenever `C > 0`. -/
def runBatchAux (C : ℕ) (worker : α → Except ε β) : ℕ → List α → List α × Except ε (List β)
  | _, [] => ([], .ok [])
  | 0, _ :: _ => ([], .ok [])
  | fuel + 1, x :: xs =>
    let chunk := (x :: xs).take C
    match collectChunk (chunk.map worker) with
    | .error e => (chunk, .error e)
    | .ok bs =>
      let r := runBatchAux C worker fuel ((x :: xs).drop C)
      (chunk ++ r.1,
        match r.2 with
        | .ok more => .ok (bs ++ more)
        | .error e => .error e)

/-- The batch scheduling skeleton of `process_img2vid_batch`, with
`worker` abstracting the per-item `image_to_video` call. -/
def process_img2vid_batch (C : ℕ) (worker : α → Except ε β) (items : List α) :
    List α × Except ε (List β) :=
  runBatchAux C worker items.length items

theorem runBatchAux_cons (C : ℕ) (worker : α → Except ε β) (fuel : ℕ)
    (l : List α) (hne : l ≠ []) :
    runBatchAux C worker (fuel + 1) l =
      match collectChunk ((l.take C).map worker) with
      | .error e => (l.take C, .error e)
      | .ok bs =>
        let r := runBatchAux C worker fuel (l.drop C)
        (l.take C ++ r.1,
          match r.2 with
          | .ok more => .ok (bs ++ more)
          | .error e => .error e) := by
  cases l with
  | nil => exact absurd rfl hne
  | cons x xs => rfl

theorem collectChunk_ok (worker : α → Except ε β) (f : α → β) :
    ∀ chunk : List α, (∀ a ∈ chunk, worker a = .ok (f a)) →
      collectChunk (chunk.map worker) = .ok (chunk.map f) := by
  intro chunk
  induction chunk with
  | nil => intro _; rfl
  | cons a t ih =>
    intro h
    have ha : worker a = .ok (f a) := h a (by simp)
    have ht := ih (fun b hb => h b (List.mem_cons_of_mem a hb))
    simp only [List.map_cons, ha, collectChunk, ht]

theorem collectChunk_error (worker : α → Except ε β) (f : α → β) (e : ε) :
    ∀ (p : List α) (x : α) (q : List α), (∀ a ∈ p, worker a = .ok (f a)) →
      worker x = .error e →
      collectChunk ((p ++ x :: q).map worker) = .error e := by
  intro p
  induction p with
  | nil =>
    intro x q _ hx
    simp only [List.nil_append, List.map_cons, hx, collectChunk]
  | cons a t ih =>
    intro x q h hx
    have ha : worker a = .ok (f a) := h a (by simp)
    have ht := ih x q (fun b hb => h b (List.mem_cons_of_mem a hb)) hx
    simp only [List.cons_append, List.map_cons, ha, collectChunk, ht]

/-- If every invocation succeeds, the batch returns all items as
invoked and the results in input order. -/
theorem runBatchAux_all_ok (C : ℕ) (hC : 0 < C) (worker : α → Except ε β) (f : α → β) :
    ∀ (fuel : ℕ) (items : List α), items.length ≤ fuel →
      (∀ a ∈ items, worker a = .ok (f a)) →
      runBatchAux C worker fuel items = (items, .ok (items.map f)) := by
  intro fuel
  induction fuel with
  | zero =>
    intro items hlen _
    cases items with
    | nil => rfl
    | cons x xs => simp at hlen
  | succ fuel ih =>
    intro items hlen hok
    cases items with
    | nil => rfl
    | cons x xs =>
      rw [runBatchAux_cons C worker fuel (x :: xs) (by simp)]
      have htake : ∀ a ∈ (x :: xs).take C, worker a = .ok (f a) :=
        fun a ha => hok a (List.take_subset C (x :: xs) ha)
      rw [collectChunk_ok worker f _ htake]
      have hdroplen : ((x :: xs).drop C).length ≤ fuel := by
        rw [List.length_drop]
        simp only [List.length_cons] at hlen ⊢
        omega
      have hdrop : ∀ a ∈ (x :: xs).drop C, worker a = .ok (f a) :=
        fun a ha => hok a (List.drop_subset C (x :: xs) ha)
      rw [ih _ hdroplen hdrop]
      simp only [List.take_append_drop, ← List.map_append]

/-- C4: with positive concurrency, if every worker invocation
succeeds then the batch invokes the worker on every item and returns
the list of outcomes in input order: the i-th result is the outcome
of the worker on the i-th item, independently of any per-item
completion timing (the collection loop reads futures by index, never
by completion order). -/
theorem C4_batch_output_order_equals_input_order (C : ℕ) (worker : α → Except ε β)
    (f : α → β) (items : List α) (hC : 0 < C)
    (hok : ∀ a ∈ items, worker a = .ok (f a)) :
    process_img2vid_batch C worker items = (items, .ok (items.map f)) :=
  runBatchAux_all_ok C hC worker f items.length items (le_refl _) hok

/-- Witness for C4: five items, concurrency 2, a trivially succeeding
worker. -/
theorem C4_witness :
    process_img2vid_batch 2 (fun n : ℕ => Except.ok (ε := String) (n * 10)) [0, 1, 2, 3, 4] =
      ([0, 1, 2, 3, 4], Except.ok [0, 10, 20, 30, 40]) := by
  have := C4_batch_output_order_equals_input_order 2
    (fun n : ℕ => Except.ok (ε := String) (n * 10)) (fun n => n * 10) [0, 1, 2, 3, 4]
    (by decide) (fun a _ => rfl)
  simpa using this

/-- Fail-fast behaviour of the chunked batch loop: if every item
before `x` succeeds and `x` raises, the batch stops with the error of
`x` after invoking the worker exactly on the chunks up to and
including the one containing `x`. -/
theorem runBatchAux_fail (C : ℕ) (hC : 0 < C) (worker : α → Except ε β) (f : α → β) :
    ∀ (fuel : ℕ) (pre post : List α) (x : α) (e : ε),
      (pre ++ x :: post).length ≤ fuel →
      (∀ a ∈ pre, worker a = .ok (f a)) → worker x = .error e →
      runBatchAux C worker fuel (pre ++ x :: post) =
        ((pre ++ x :: post).take (C * (pre.length / C + 1)), .error e) := by
  intro fuel
  induction fuel with
  | zero =>
    intro pre post x e hlen _ _
    simp [List.length_append] at hlen
  | succ fuel ih =>
    intro pre post x e hlen hpre hx
    rw [runBatchAux_cons C worker fuel (pre ++ x :: post) (by simp)]
    by_cases hcase : pre.length < C
    · have hdiv : pre.length / C = 0 := Nat.div_eq_of_lt hcase
      have htake : (pre ++ x :: post).take C =
          pre ++ x :: post.take (C - pre.length - 1) := by
        rw [List.take_append_eq_append_take,
          List.take_of_length_le (le_of_lt hcase)]
        congr 1
        have : C - pre.length = (C - pre.length - 1) + 1 := by omega
        rw [this, List.take_succ_cons]
        simp
      rw [htake, collectChunk_error worker f e pre x _ hpre hx, hdiv]
      simp only [Nat.zero_add, Nat.mul_one]
      rw [htake]
    · push_neg at hcase
      have htake : (pre ++ x :: post).take C = pre.take C :=
        List.take_append_of_le_length hcase
      have hdrop : (pre ++ x :: post).drop C = pre.drop C ++ x :: post :=
        List.drop_append_of_le_length hcase
      have hchunkok : ∀ a ∈ (pre ++ x :: post).take C, worker a = .ok (f a) := by
        intro a ha
        rw [htake] at ha
        exact hpre a (List.take_subset C pre ha)
      rw [collectChunk_ok worker f _ hchunkok]
      have hlen2 : ((pre.drop C) ++ x :: post).length ≤ fuel := by
        simp only [List.length_append, List.length_cons, List.length_drop] at hlen ⊢
        omega
      have hpre2 : ∀ a ∈ pre.drop C, worker a = .ok (f a) :=
        fun a ha => hpre a (List.drop_subset C pre ha)
      have hrec := ih (pre.drop C) post x e hlen2 hpre2 hx
      rw [hdrop, hrec]
      have hdivstep : pre.length / C = (pre.length - C) / C + 1 := by
        conv_lhs => rw [← Nat.sub_add_cancel hcase]
        rw [Nat.add_div_right _ hC]
      have harith : C * (pre.length / C + 1) =
          C + C * ((pre.drop C).length / C + 1) := by
        rw [List.length_drop, hdivstep]
        ring
      rw [harith, List.take_add, htake, hdrop]

/-- C5: batch scheduler fail-fast.  If every item before `x` succeeds
and the invocation on `x` raises `e`, the batch aborts with `e` (the
first error observed while collecting the results of the failing chunk in
index order), the worker-invocation trace is exactly the items of the
chunks up to and including the failing chunk (results of completed
chunks are kept in the trace, and no item of a later chunk is ever
passed to the worker). -/
theorem C5_batch_fail_fast (C : ℕ) (worker : α → Except ε β) (f : α → β)
    (pre post : List α) (x : α) (e : ε) (hC : 0 < C)
    (hpre : ∀ a ∈ pre, worker a = .ok (f a)) (hx : worker x = .error e) :
    process_img2vid_batch C worker (pre ++ x :: post) =
      ((pre ++ x :: post).take (C * (pre.length / C + 1)), .error e) :=
  runBatchAux_fail C hC worker f _ pre post x e (le_refl _) hpre hx

/-- Witness for C5: four items in chunks of two, item at index 1
(item 2 of chunk 1) fails: only the items of chunk 1 are ever passed
to the worker and the batch aborts with the error of that item. -/
theorem C5_witness :
    process_img2vid_batch 2
        (fun n : ℕ => if n = 1 then Except.error "boom" else Except.ok n) [0, 1, 2, 3] =
      ([0, 1], Except.error "boom") := by
  have := C5_batch_fail_fast 2
    (fun n : ℕ => if n = 1 then Except.error "boom" else Except.ok n)
    (fun n => n) [0] [2, 3] 1 "boom" (by decide)
    (by intro a ha; simp at ha; subst ha; rfl) (by rfl)
  simpa using this

end Batch

section Distributor

variable {α : Type}

/-- The in-place swap `x[i], x[j] = x[j], x[i]` performed by
`random.shuffle`. -/
def listSwap (l : List α) (i j : ℕ) : List α :=
  match l[i]?, l[j]? with
  | some a, some b => (l.set i b).set j a
  | _, _ => l

/-- The Fisher-Yates loop of the CPython `random.shuffle`:
`for i in reversed(range(1, len(x))): j = randbelow(i + 1); swap i j`.
`g i` models the draw taken from the process-global Mersenne Twister
at step `i`; the loop argument is the current value of `i`. -/
def fisherYates (g : ℕ → ℕ) : ℕ → List α → List α
  | 0, l => l
  | i + 1, l => fisherYates g i (listSwap l (i + 1) (g (i + 1) % (i + 2)))

/-- `random.shuffle(x)` as called by `distribute_zoom_types`, with the
global generator state threaded explicitly as `g`. -/
def pyShuffle (g : ℕ → ℕ) (l : List α) : List α :=
  fisherYates g (l.length - 1) l

/-- The block construction of `distribute_zoom_types`:
`for i, zoom_type in enumerate(zoom_types): count = base_count +
(1 if i < remainder else 0); distribution.extend([zoom_type] * count)`. -/
def zoomBlocks (base rem : ℕ) : ℕ → List String → List String
  | _, [] => []
  | i, zt :: rest =>
    List.replicate (base + if i < rem then 1 else 0) zt ++ zoomBlocks base rem (i + 1) rest

/-- `distribute_zoom_types(zoom_types, image_count)`.  The source
function has no seed or generator parameter; it mutates the
process-global `random` generator, whose state is therefore threaded
explicitly as `g` in this embedding. -/
def distribute_zoom_types (g : ℕ → ℕ) (zoom_types : List String) (image_count : ℕ) :
    List String :=
  if zoom_types.isEmpty || image_count == 0 then
    List.replicate image_count "zoomin"
  else
    pyShuffle g
      (zoomBlocks (image_count / zoom_types.length) (image_count % zoom_types.length)
        0 zoom_types)

theorem cons_set_perm :
    ∀ (t : List α) (m : ℕ) (h : m < t.length) (x : α),
      List.Perm (t.get ⟨m, h⟩ :: t.set m x) (x :: t) := by
  intro t
  induction t with
  | nil => intro m h x; simp at h
  | cons y s ih =>
    intro m h x
    cases m with
    | zero =>
      simp only [List.get_cons_zero, List.set_cons_zero]
      exact List.Perm.swap x y s
    | succ m =>
      have hm : m < s.length := by simpa using h
      simp only [List.get_cons_succ, List.set_cons_succ]
      refine List.Perm.trans (List.Perm.swap y _ _) ?_
      refine List.Perm.trans (List.Perm.cons y (ih m hm x)) ?_
      exact List.Perm.swap x y s

theorem set_set_swap_perm :
    ∀ (l : List α) (i j : ℕ) (hi : i < l.length) (hj : j < l.length),
      List.Perm ((l.set i (l.get ⟨j, hj⟩)).set j (l.get ⟨i, hi⟩)) l := by
  intro l
  induction l with
  | nil => intro i j hi; simp at hi
  | cons x t ih =>
    intro i j hi hj
    cases i with
    | zero =>
      cases j with
      | zero => simp
      | succ m =>
        have hm : m < t.length := by simpa using hj
        simp only [List.get_cons_zero, List.get_cons_succ, List.set_cons_zero,
          List.set_cons_succ]
        exact cons_set_perm t m hm x
    | succ i =>
      cases j with
      | zero =>
        have hi2 : i < t.length := by simpa using hi
        simp only [List.get_cons_zero, List.get_cons_succ, List.set_cons_zero,
          List.set_cons_succ]
        exact cons_set_perm t i hi2 x
      | succ j =>
        have hi2 : i < t.length := by simpa using hi
        have hj2 : j < t.length := by simpa using hj
        simp only [List.get_cons_succ, List.set_cons_succ]
        exact List.Perm.cons x (ih i j hi2 hj2)

theorem listSwap_perm (l : List α) (i j : ℕ) : List.Perm (listSwap l i j) l := by
  rcases hvi : l[i]? with _ | a
  · simp only [listSwap, hvi]
    exact List.Perm.refl l
  · rcases hvj : l[j]? with _ | b
    · simp only [listSwap, hvi, hvj]
      exact List.Perm.refl l
    · obtain ⟨hi, hia⟩ := List.getElem?_eq_some.mp hvi
      obtain ⟨hj, hjb⟩ := List.getElem?_eq_some.mp hvj
      simp only [listSwap, hvi, hvj]
      have hga : a = l.get ⟨i, hi⟩ := hia.symm
      have hgb : b = l.get ⟨j, hj⟩ := hjb.symm
      rw [hga, hgb]
      exact set_set_swap_perm l i j hi hj

theorem fisherYates_perm (g : ℕ → ℕ) :
    ∀ (n : ℕ) (l : List α), List.Perm (fisherYates g n l) l := by
  intro n
  induction n with
  | zero => intro l; exact List.Perm.refl l
  | succ n ih =>
    intro l
    exact (ih _).trans (listSwap_perm l (n + 1) (g (n + 1) % (n + 2)))

theorem pyShuffle_perm (g : ℕ → ℕ) (l : List α) : List.Perm (pyShuffle g l) l :=
  fisherYates_perm g (l.length - 1) l

theorem count_zoomBlocks_not_mem (a : String) (base rem : ℕ) :
    ∀ (zts : List String) (i : ℕ), a ∉ zts → (zoomBlocks base rem i zts).count a = 0 := by
  intro zts
  induction zts with
  | nil => intro i _; rfl
  | cons zt rest ih =>
    intro i ha
    have hne : zt ≠ a := fun h => ha (by simp [h])
    have hrest : a ∉ rest := fun h => ha (List.mem_cons_of_mem zt h)
    simp only [zoomBlocks, List.count_append, List.count_replicate, ih (i + 1) hrest]
    simp only [beq_iff_eq, Nat.add_zero]
    rw [if_neg hne]

theorem count_zoomBlocks (base rem : ℕ) :
    ∀ (zts : List String), zts.Nodup → ∀ (i k : ℕ) (hk : k < zts.length),
      (zoomBlocks base rem i zts).count (zts.get ⟨k, hk⟩) =
        base + if i + k < rem then 1 else 0 := by
  intro zts
  induction zts with
  | nil => intro _ i k hk; simp at hk
  | cons zt rest ih =>
    intro hnd i k hk
    have hzt : zt ∉ rest := (List.nodup_cons.mp hnd).1
    have hndr : rest.Nodup := (List.nodup_cons.mp hnd).2
    cases k with
    | zero =>
      have h0 := count_zoomBlocks_not_mem zt base rem rest (i + 1) hzt
      simp only [List.get_cons_zero, zoomBlocks, List.count_append,
        List.count_replicate, h0]
      simp [h0]
    | succ k =>
      have hk2 : k < rest.length := by simpa using hk
      have hmem : rest[k] ∈ rest := List.getElem_mem hk2
      have hne2 : zt ≠ rest[k] := by
        intro h
        rw [h] at hzt
        exact hzt hmem
      have hrepl : List.count rest[k]
          (List.replicate (base + if i < rem then 1 else 0) zt) = 0 := by
        rw [List.count_replicate]
        simp [beq_iff_eq, hne2]
      have hih := ih hndr (i + 1) k hk2
      simp only [List.get_eq_getElem] at hih
      simp only [List.get_cons_succ, List.get_eq_getElem, List.getElem_cons_succ,
        zoomBlocks, List.count_append, hrepl, hih]
      have harith : i + 1 + k = i + (k + 1) := by omega
      simp [harith]

theorem length_zoomBlocks (base rem : ℕ) :
    ∀ (zts : List String) (i : ℕ),
      (zoomBlocks base rem i zts).length =
        zts.length * base + (min (i + zts.length) rem - min i rem) := by
  intro zts
  induction zts with
  | nil => intro i; simp [zoomBlocks]
  | cons zt rest ih =>
    intro i
    simp only [zoomBlocks, List.length_append, List.length_replicate, ih (i + 1),
      List.length_cons]
    have hmul : (rest.length + 1) * base = rest.length * base + base := by ring
    rw [hmul]
    obtain ⟨P, hP⟩ : ∃ P, rest.length * base = P := ⟨_, rfl⟩
    rw [hP]
    clear hP
    by_cases hi : i < rem
    · simp only [if_pos hi]
      omega
    · simp only [if_neg hi]
      omega

/-- C6 counterexample: with a duplicated variant entry the per-variant
occurrence counts are not floor(n/k) or floor(n/k)+1.  For
variants = ["a","a"] and n = 3 the claim predicts that variant 0
("a") occurs 3/2 + 1 = 2 times, but it occurs 3 times. -/
theorem C6_counterexample :
    ¬ (distribute_zoom_types (fun _ => 0) ["a", "a"] 3).count "a" = 3 / 2 + 1 := by
  with_unfolding_all decide

/-- C6 (amended): for a non-empty variant list with pairwise-distinct
entries, `distribute_zoom_types` returns a sequence of length n whose
count of variant i is floor(n/k)+1 for i < n mod k and floor(n/k)
otherwise; an empty variant list yields n copies of the default
variant "zoomin", and n = 0 yields the empty sequence.  This holds
for every state `g` of the global generator driving the shuffle. -/
theorem C6_distribution_counts :
    (∀ (g : ℕ → ℕ) (zts : List String) (n : ℕ), zts ≠ [] → zts.Nodup →
      (distribute_zoom_types g zts n).length = n ∧
        ∀ (k : ℕ) (hk : k < zts.length),
          (distribute_zoom_types g zts n).count (zts.get ⟨k, hk⟩) =
            n / zts.length + if k < n % zts.length then 1 else 0) ∧
    (∀ (g : ℕ → ℕ) (n : ℕ),
      distribute_zoom_types g [] n = List.replicate n "zoomin") := by
  constructor
  · intro g zts n hne hnd
    by_cases hn : n = 0
    · subst hn
      have hzero : distribute_zoom_types g zts 0 = [] := by
        simp [distribute_zoom_types]
      refine ⟨by simp [hzero], ?_⟩
      intro k hk
      have hlen : 0 < zts.length := List.length_pos.mpr hne
      simp [hzero, Nat.zero_div, Nat.zero_mod]
    · have hcond : (zts.isEmpty || n == 0) = false := by
        simp [List.isEmpty_iff, hne, hn]
      have hdz : distribute_zoom_types g zts n =
          pyShuffle g (zoomBlocks (n / zts.length) (n % zts.length) 0 zts) := by
        simp only [distribute_zoom_types, hcond, Bool.false_eq_true, if_false]
      have hperm := pyShuffle_perm g (zoomBlocks (n / zts.length) (n % zts.length) 0 zts)
      constructor
      · rw [hdz, hperm.length_eq, length_zoomBlocks]
        have hlen : 0 < zts.length := List.length_pos.mpr hne
        have hmod : n % zts.length < zts.length := Nat.mod_lt _ hlen
        have hdm := Nat.div_add_mod n zts.length
        omega
      · intro k hk
        rw [hdz, hperm.count_eq, count_zoomBlocks _ _ zts hnd 0 k hk]
        simp
  · intro g n
    simp [distribute_zoom_types]

/-- Witness for the amended C6 at variants ["a", "b"], n = 3. -/
theorem C6_witness :
    (distribute_zoom_types (fun _ => 0) ["a", "b"] 3).length = 3 ∧
      (distribute_zoom_types (fun _ => 0) ["a", "b"] 3).count "a" = 2 ∧
      (distribute_zoom_types (fun _ => 0) ["a", "b"] 3).count "b" = 1 := by
  have h := C6_distribution_counts.1 (fun _ => 0) ["a", "b"] 3 (by simp) (by decide)
  refine ⟨h.1, ?_, ?_⟩
  · have := h.2 0 (by decide)
    simpa using this
  · have := h.2 1 (by decide)
    simpa using this

/-- C7: the source `distribute_zoom_types` takes no seed or generator
parameter; its shuffle order is governed by the state of the
process-global generator, so runs over identical arguments under
different global generator states return different sequences: there
is no per-call reproducibility handle. -/
theorem C7_shuffle_depends_on_global_generator_state :
    distribute_zoom_types (fun _ => 0) ["a", "b"] 3 ≠
      distribute_zoom_types (fun t => t) ["a", "b"] 3 := by
  with_unfolding_all decide

end Distributor

section Probe

/-- `calculate_optimal_batch_size`.  `detected = some c` models a
resolved vCPU count `c` (from RUNPOD_CPU_COUNT, a cgroup quota, or
`multiprocessing.cpu_count()`); `none` models the exception path in
which every detection step failed.  Python `int(cpu_count * 1.5)`
truncates the exact value `3 * c / 2` toward zero, which is
`Int.tdiv (3 * c) 2`; the result is clamped with
`max(2, min(16, optimal))`, and the exception path returns the safe
fallback 4. -/
def calculate_optimal_batch_size (detected : Option ℤ) : ℤ :=
  match detected with
  | some c => max 2 (min 16 (Int.tdiv (3 * c) 2))
  | none => 4

/-- C8: the probe scales the detected count by 1.5 and clamps to
[2, 16]: every detected value yields a result in [2, 16], a detected
value of 30 yields 16, a detected value of 0 or negative yields 2,
and total detection failure yields the fixed default 4. -/
theorem C8_compute_parallelism_scales_and_clamps :
    (∀ c : ℤ, 2 ≤ calculate_optimal_batch_size (some c) ∧
      calculate_optimal_batch_size (some c) ≤ 16) ∧
    calculate_optimal_batch_size (some 30) = 16 ∧
    (∀ c : ℤ, c ≤ 0 → calculate_optimal_batch_size (some c) = 2) ∧
    calculate_optimal_batch_size none = 4 := by
  refine ⟨?_, by decide, ?_, rfl⟩
  · intro c
    constructor
    · exact le_max_left 2 _
    · exact max_le (by norm_num) (min_le_left 16 _)
  · intro c hc
    have h3 : 3 * c ≤ 0 := by linarith
    have hneg : Int.tdiv (3 * c) 2 ≤ 0 := by
      have h4 : 0 ≤ -(3 * c) := by linarith
      have h5 : 0 ≤ Int.tdiv (-(3 * c)) 2 := Int.tdiv_nonneg h4 (by norm_num)
      have h6 : Int.tdiv (-(3 * c)) 2 = -(Int.tdiv (3 * c) 2) := Int.neg_tdiv (3 * c) 2
      linarith [h6 ▸ h5]
    show max 2 (min 16 (Int.tdiv (3 * c) 2)) = 2
    rw [min_eq_right (by linarith : Int.tdiv (3 * c) 2 ≤ 16)]
    exact max_eq_left (by linarith)

/-- Witness for C8 at detected counts 30, 0 and -7. -/
theorem C8_witness :
    (2 ≤ calculate_optimal_batch_size (some 30) ∧
        calculate_optimal_batch_size (some 30) ≤ 16) ∧
      calculate_optimal_batch_size (some 0) = 2 ∧
      calculate_optimal_batch_size (some (-7)) = 2 :=
  ⟨C8_compute_parallelism_scales_and_clamps.1 30,
   C8_compute_parallelism_scales_and_clamps.2.2.1 0 (by norm_num),
   C8_compute_parallelism_scales_and_clamps.2.2.1 (-7) (by norm_num)⟩

end Probe

section Validation

/-- Python truthiness of an optional string job field: `None` and the
empty string are falsy. -/
def pyFalsyStr : Option String → Bool
  | none => true
  | some s => s == ""

/-- The validation prefix of the `concatenate` branch of `handler`:
`if not video_urls or not path or not output_filename: raise
ValueError(...)` followed by `if len(video_urls) < 2: raise
ValueError(...)`.  An `error` result models the raised ValueError;
`ok` means the handler goes on to call `concatenate_videos` (all
download and transcoding work happens only after this point). -/
def handler_concatenate_check (video_urls : List String)
    (path output_filename : Option String) : Except String Unit :=
  if video_urls.isEmpty || pyFalsyStr path || pyFalsyStr output_filename then
    .error "Missing required fields: video_urls, path, output_filename"
  else if video_urls.length < 2 then
    .error "At least 2 videos are required for concatenation"
  else .ok ()

/-- The validation prefix of the `concat_video_audio` branch of
`handler`: `if not video_urls or not audio_url or not path or not
output_filename: raise ValueError(...)` followed by
`if len(video_urls) < 1: raise ValueError(...)`.  An `error` result
models the raised ValueError; `ok` means the handler goes on to call
`concatenate_videos_cyclic`. -/
def handler_concat_video_audio_check (video_urls : List String)
    (audio_url path output_filename : Option String) : Except String Unit :=
  if video_urls.isEmpty || pyFalsyStr audio_url || pyFalsyStr path ||
      pyFalsyStr output_filename then
    .error "Missing required fields: video_urls, audio_url, path, output_filename"
  else if video_urls.length < 1 then
    .error "At least 1 video URL is required"
  else .ok ()

/-- C10: the `concatenate` operation rejects every job with fewer than
two video URLs with a ValueError raised in the validation prefix,
before any download or transcoding; a one-video job is rejected by
`concatenate`, while the cyclic `concat_video_audio` operation
accepts a one-video job. -/
theorem C10_plain_concatenate_requires_two_videos :
    (∀ (video_urls : List String) (path output_filename : Option String),
      video_urls.length < 2 →
      ∃ e, handler_concatenate_check video_urls path output_filename = .error e) ∧
    handler_concatenate_check ["v1"] (some "p") (some "out.mp4") =
      .error "At least 2 videos are required for concatenation" ∧
    handler_concat_video_audio_check ["v1"] (some "a.mp3") (some "p") (some "out.mp4") =
      .ok () := by
  refine ⟨?_, rfl, rfl⟩
  intro urls p f hlen
  unfold handler_concatenate_check
  by_cases h1 : (urls.isEmpty || pyFalsyStr p || pyFalsyStr f) = true
  · rw [if_pos h1]
    exact ⟨_, rfl⟩
  · rw [if_neg h1, if_pos hlen]
    exact ⟨_, rfl⟩

/-- Witness for C10 at a single-URL job. -/
theorem C10_witness :
    ∃ e, handler_concatenate_check ["only"] (some "p") (some "o") = .error e :=
  C10_plain_concatenate_requires_two_videos.1 ["only"] (some "p") (some "o") (by decide)

/-- C9 counterexample: a non-positive target duration raises no error
anywhere.  A well-formed one-clip job passes the handler validation,
and at target duration 0 the sequencing step of
`concatenate_videos_cyclic` neither raises nor marks an error: it
just produces the empty plan and the pipeline continues. -/
theorem C9_counterexample :
    handler_concat_video_audio_check ["v1"] (some "a.mp3") (some "p") (some "out.mp4") =
        .ok () ∧
      concatenate_videos_cyclic_plan [5] 0 = [] :=
  ⟨rfl, buildSeq_stop [5] 0 _ 0 0 (lt_irrefl 0)⟩

/-- C9 (amended): an empty clip list is rejected with a ValueError by
the handler validation, before `concatenate_videos_cyclic` is called
and hence before any download or transcoding work; a non-positive
target duration, however, raises no error at all: the sequencing loop
simply produces an empty plan. -/
theorem C9_empty_rejected_nonpositive_duration_not (audio path ofn : Option String) :
    handler_concat_video_audio_check [] audio path ofn =
        .error "Missing required fields: video_urls, audio_url, path, output_filename" ∧
      ∀ (durs : List ℚ) (T : ℚ), T ≤ 0 → concatenate_videos_cyclic_plan durs T = [] := by
  constructor
  · rfl
  · intro durs T hT
    exact buildSeq_stop durs T _ 0 0 (fun hlt => absurd hT (not_le.mpr hlt))

/-- Witness for the amended C9: empty clip list with otherwise valid
fields, and target duration -1 on clips [2.0, 3.0]. -/
theorem C9_witness :
    handler_concat_video_audio_check [] (some "a.mp3") (some "p") (some "out.mp4") =
        .error "Missing required fields: video_urls, audio_url, path, output_filename" ∧
      concatenate_videos_cyclic_plan [2, 3] (-1) = [] :=
  ⟨(C9_empty_rejected_nonpositive_duration_not (some "a.mp3") (some "p") (some "out.mp4")).1,
   (C9_empty_rejected_nonpositive_duration_not (some "a.mp3") (some "p") (some "out.mp4")).2
     [2, 3] (-1) (by norm_num)⟩

end Validation

end RpHandler
